import Mathlib

/-!
Shallow embedding of the core pipeline of `src/stock_tracer.py`:
weekday filtering of a daily price series, Stochastic Oscillator (%K/%D),
RSI, and the summary statistics computed over the rounded display table.

Prices are modelled as exact rationals.  The special float values that
pandas produces (NaN from insufficient rolling history or 0/0, ±inf from
x/0 with x ≠ 0) are modelled explicitly by the type `FVal`, because the
script relies on them: NaN is pandas' missing marker and inf can leak out
of the %K division.
-/

set_option maxRecDepth 100000

set_option allowUnsafeReducibility true

attribute [semireducible] Rat.add Rat.mul Rat.div Rat.inv Rat.sub Rat.ofScientific

namespace StockTracer

/-- One row of the fetched price frame: a trading day's record
(`df` columns `Open, High, Low, Close, Volume` indexed by date).
The date is an ordinal day number; day 0 is a Monday, so the calendar
weekday of `d` is `d % 7` with Monday = 0, as in pandas `dayofweek`. -/
structure PriceBar where
  date : Nat
  Open : ℚ
  High : ℚ
  Low : ℚ
  Close : ℚ
  Volume : Nat
deriving DecidableEq, Repr

/-- `df.index.dayofweek` (Monday = 0, ..., Sunday = 6). -/
def dayofweek (d : Nat) : Nat := d % 7

/-- `df[df['DayOfWeek'] == selected_day]`: keep the rows whose calendar
weekday equals the selected day. -/
def filterDay (s : List PriceBar) (w : Nat) : List PriceBar :=
  s.filter (fun b => dayofweek b.date == w)

/-- The fetched DataFrame `df`: its price rows plus the `DayOfWeek`
column, which does not exist until line 76 of the script assigns it. -/
structure StockFrame where
  rows : List PriceBar
  dayOfWeekCol : Option (List Nat)
deriving DecidableEq, Repr

/-- `df['DayOfWeek'] = df.index.dayofweek` — in-place assignment of a new
column on the source frame. -/
def addDayOfWeekCol (df : StockFrame) : StockFrame :=
  { df with dayOfWeekCol := some (df.rows.map (fun b => dayofweek b.date)) }

/-- Lines 76-77 of the script: mutate `df` by adding the `DayOfWeek`
column, then build `df_filtered` as an independent `.copy()` of the
matching rows.  Returns the post-assignment state of `df` and the copy. -/
def filterStage (df : StockFrame) (w : Nat) : StockFrame × List PriceBar :=
  let df2 := addDayOfWeekCol df
  (df2, filterDay df2.rows w)

/-- A pandas float value: an ordinary (exact) number, NaN, or ±infinity.
NaN is the missing marker. -/
inductive FVal where
  | nan : FVal
  | inf : FVal
  | ninf : FVal
  | num : ℚ → FVal
deriving DecidableEq, Repr

namespace FVal

def isNan : FVal → Bool
  | nan => true
  | _ => false

def neg : FVal → FVal
  | nan => nan
  | inf => ninf
  | ninf => inf
  | num q => num (-q)

def add : FVal → FVal → FVal
  | nan, _ => nan
  | _, nan => nan
  | inf, ninf => nan
  | ninf, inf => nan
  | inf, _ => inf
  | _, inf => inf
  | ninf, _ => ninf
  | _, ninf => ninf
  | num a, num b => num (a + b)

def sub (a b : FVal) : FVal := add a (neg b)

/-- IEEE division of two finite values (zero denominators carry the sign
of the numerator into ±inf; 0/0 is NaN).  The rationals have no signed
zero; a float denominator that is exactly zero here is `+0.0`, which is
what `H14 - L14` and the rolling-mean `loss` produce. -/
def divQ (n d : ℚ) : FVal :=
  if d ≠ 0 then num (n / d)
  else if 0 < n then inf
  else if n < 0 then ninf
  else nan

def div : FVal → FVal → FVal
  | nan, _ => nan
  | _, nan => nan
  | inf, inf => nan
  | inf, ninf => nan
  | ninf, inf => nan
  | ninf, ninf => nan
  | inf, num b => if b < 0 then ninf else inf
  | ninf, num b => if b < 0 then inf else ninf
  | num _, inf => num 0
  | num _, ninf => num 0
  | num a, num b => divQ a b

end FVal

/-- The trailing window of `p` entries ending at position `i`
(fewer when `i + 1 < p`): pandas' `rolling(window=p)` slice. -/
def window (p i : Nat) (xs : List α) : List α :=
  (xs.take (i + 1)).drop (i + 1 - p)

/-- Minimum of a list, `none` on the empty list. -/
def listMin : List ℚ → Option ℚ
  | [] => none
  | x :: xs => some (xs.foldl min x)

/-- Maximum of a list, `none` on the empty list. -/
def listMax : List ℚ → Option ℚ
  | [] => none
  | x :: xs => some (xs.foldl max x)

/-- Arithmetic mean of a list of rationals (0 on the empty list, unused). -/
def qmean (xs : List ℚ) : ℚ := xs.sum / (xs.length : ℚ)

/-- `col.rolling(window=p).min()`: NaN (`none`) until the window holds
`p` observations. -/
def rollingMin (p : Nat) (xs : List ℚ) : List (Option ℚ) :=
  (List.range xs.length).map fun i =>
    if i + 1 < p then none else listMin (window p i xs)

/-- `col.rolling(window=p).max()`. -/
def rollingMax (p : Nat) (xs : List ℚ) : List (Option ℚ) :=
  (List.range xs.length).map fun i =>
    if i + 1 < p then none else listMax (window p i xs)

/-- `col.rolling(window=p).mean()` on a column without NaNs. -/
def rollingMean (p : Nat) (xs : List ℚ) : List (Option ℚ) :=
  (List.range xs.length).map fun i =>
    if i + 1 < p then none else some (qmean (window p i xs))

/-- Sum of pandas float values (`num 0` is the initial accumulator). -/
def fsum (xs : List FVal) : FVal := xs.foldl FVal.add (FVal.num 0)

/-- `col.rolling(window=p).mean()` on a float column that may contain
NaNs: pandas requires `p` non-NaN observations in the window
(`min_periods` defaults to the window size), so any NaN in a full window
gives NaN; ±inf counts as an observation and propagates through the sum. -/
def rollingMeanF (p : Nat) (xs : List FVal) : List FVal :=
  (List.range xs.length).map fun i =>
    if i + 1 < p ∨ (window p i xs).any FVal.isNan then FVal.nan
    else FVal.div (fsum (window p i xs)) (FVal.num ((window p i xs).length : ℚ))

/-- `df['L14']` of `calculate_stochastic`: rolling min of `Low`. -/
def colL14 (p : Nat) (fs : List PriceBar) : List (Option ℚ) :=
  rollingMin p (fs.map PriceBar.Low)

/-- `df['H14']`: rolling max of `High`. -/
def colH14 (p : Nat) (fs : List PriceBar) : List (Option ℚ) :=
  rollingMax p (fs.map PriceBar.High)

/-- One entry of `100 * ((Close - L14) / (H14 - L14))`: NaN propagates
from an undefined window; a zero denominator follows float semantics. -/
def kElem (c : ℚ) : Option ℚ → Option ℚ → FVal
  | some l, some h => FVal.divQ (100 * (c - l)) (h - l)
  | _, _ => FVal.nan

/-- `df['%K']` of `calculate_stochastic`. -/
def pctK (p : Nat) (fs : List PriceBar) : List FVal :=
  (List.range fs.length).map fun i =>
    kElem ((fs.map PriceBar.Close).getD i 0)
      ((colL14 p fs).getD i none) ((colH14 p fs).getD i none)

/-- `df['%D'] = df['%K'].rolling(window=3).mean()`. -/
def pctD (p : Nat) (fs : List PriceBar) : List FVal :=
  rollingMeanF 3 (pctK p fs)

/-- `delta = df['Close'].diff()`: undefined (`none`, i.e. NaN) at the
first row. -/
def diffQ (xs : List ℚ) : List (Option ℚ) :=
  (List.range xs.length).map fun i =>
    if i = 0 then none else some (xs.getD i 0 - xs.getD (i - 1) 0)

/-- `delta.where(delta > 0, 0)`: `where` keeps the value when the
condition is True and substitutes 0 when it is False — and `NaN > 0`
is False, so the NaN at row 0 becomes 0, not NaN. -/
def gainsCol (xs : List ℚ) : List ℚ :=
  (diffQ xs).map fun d =>
    match d with
    | some d => if 0 < d then d else 0
    | none => 0

/-- `-delta.where(delta < 0, 0)` (the negation is applied after `where`;
the NaN at row 0 again becomes 0). -/
def lossesCol (xs : List ℚ) : List ℚ :=
  (diffQ xs).map fun d =>
    match d with
    | some d => if d < 0 then -d else 0
    | none => 0

/-- `gain` of `calculate_rsi`: rolling mean of the masked positive deltas. -/
def gainCol (p : Nat) (xs : List ℚ) : List (Option ℚ) :=
  rollingMean p (gainsCol xs)

/-- `loss` of `calculate_rsi`. -/
def lossCol (p : Nat) (xs : List ℚ) : List (Option ℚ) :=
  rollingMean p (lossesCol xs)

/-- One entry of `rs = gain / loss` (float semantics: NaN window → NaN,
positive/0 → inf, 0/0 → NaN). -/
def rsElem : Option ℚ → Option ℚ → FVal
  | some g, some l => FVal.divQ g l
  | _, _ => FVal.nan

/-- `df['RSI'] = 100 - (100 / (1 + rs))`. -/
def rsiElem (rs : FVal) : FVal :=
  FVal.sub (FVal.num 100) (FVal.div (FVal.num 100) (FVal.add (FVal.num 1) rs))

/-- The RSI column of `calculate_rsi`, as a function of the Close column. -/
def rsiCol (p : Nat) (xs : List ℚ) : List FVal :=
  (List.range xs.length).map fun i =>
    rsiElem (rsElem ((gainCol p xs).getD i none) ((lossCol p xs).getD i none))

/-- Round a rational to the nearest integer, ties to even — the rounding
of Python's `round` and pandas' `.round` on floats. -/
def roundHalfEvenZ (q : ℚ) : ℤ :=
  let n := ⌊q⌋
  if q - n < 1 / 2 then n
  else if 1 / 2 < q - n then n + 1
  else if Even n then n else n + 1

/-- `round(x, 2)`. -/
def round2 (q : ℚ) : ℚ := (roundHalfEvenZ (q * 100) : ℚ) / 100

/-- `.round(2)` on a float value: NaN and ±inf are unchanged. -/
def roundF : FVal → FVal
  | FVal.num q => FVal.num (round2 q)
  | v => v

/-- `df_filtered['Variance'] = df_filtered['High'] - df_filtered['Low']`. -/
def colVariance (fs : List PriceBar) : List ℚ :=
  fs.map (fun b => b.High - b.Low)

/-- A numeric column of `display_df`: rounded to 2 decimals and then
sorted by date descending (`sort_index(ascending=False)` reverses the
ascending-by-date filtered frame). -/
def displayCol (xs : List ℚ) : List ℚ := (xs.map round2).reverse

/-- An indicator column of `display_df` (NaN survives rounding). -/
def displayColF (xs : List FVal) : List FVal := (xs.map roundF).reverse

/-- The columns of `display_df` that the summary block reads. -/
structure DisplayDF where
  dOpen : List ℚ
  dHigh : List ℚ
  dLow : List ℚ
  dClose : List ℚ
  dVariance : List ℚ
  dK : List FVal
  dD : List FVal
  dRSI : List FVal
deriving DecidableEq, Repr

/-- `display_df = df_filtered[[...]].round(2).sort_index(ascending=False)`
built from the filtered rows (after the Variance/indicator passes). -/
def mkDisplay (fs : List PriceBar) : DisplayDF :=
  { dOpen := displayCol (fs.map PriceBar.Open)
    dHigh := displayCol (fs.map PriceBar.High)
    dLow := displayCol (fs.map PriceBar.Low)
    dClose := displayCol (fs.map PriceBar.Close)
    dVariance := displayCol (colVariance fs)
    dK := displayColF (pctK 14 fs)
    dD := displayColF (pctD 14 fs)
    dRSI := displayColF (rsiCol 14 (fs.map PriceBar.Close)) }

/-- Pandas `Series.mean()` with the default `skipna=True`: NaN entries
are dropped, the rest (±inf included) are averaged; the mean of an
all-NaN column is the empty mean 0/0, i.e. NaN. -/
def fmean (xs : List FVal) : FVal :=
  let v := xs.filter (fun x => !FVal.isNan x)
  FVal.div (fsum v) (FVal.num (v.length : ℚ))

/-- The `summary` dictionary: plain rounded aggregates for the five
numeric columns, and for each indicator column either the rounded mean
or the "N/A" marker (`none`) when the column is entirely NaN. -/
structure SummaryStats where
  avgOpen : ℚ
  avgClose : ℚ
  avgVariance : ℚ
  maxHigh : ℚ
  minLow : ℚ
  avgK : Option FVal
  avgD : Option FVal
  avgRSI : Option FVal
deriving DecidableEq, Repr

/-- Lines 165-174 of the script (the filtered frame is non-empty there,
so `getD 0` never supplies its default). -/
def mkSummary (d : DisplayDF) : SummaryStats :=
  { avgOpen := round2 (qmean d.dOpen)
    avgClose := round2 (qmean d.dClose)
    avgVariance := round2 (qmean d.dVariance)
    maxHigh := round2 ((listMax d.dHigh).getD 0)
    minLow := round2 ((listMin d.dLow).getD 0)
    avgK := if d.dK.all FVal.isNan then none else some (roundF (fmean d.dK))
    avgD := if d.dD.all FVal.isNan then none else some (roundF (fmean d.dD))
    avgRSI := if d.dRSI.all FVal.isNan then none
      else some (roundF (fmean d.dRSI)) }

/-- The summary statistics for a filtered series. -/
def summaryOf (fs : List PriceBar) : SummaryStats := mkSummary (mkDisplay fs)

/-! ### Concrete inputs used by witnesses and counterexamples -/

/-- A bar whose four prices are all `c` (a flat trading day). -/
def calBar (d : Nat) (c : ℚ) : PriceBar := ⟨d, c, c, c, c, 0⟩

/-- The spec's scenario: 20 consecutive calendar days starting on a
Monday; the three Fridays (days 4, 11, 18) close at 100, 102, 104. -/
def scenarioSeries : List PriceBar :=
  (List.range 20).map fun d =>
    calBar d (if d = 4 then 100 else if d = 11 then 102 else if d = 18 then 104 else 50)

/-- 14 flat bars at 5 whose Close is 10: the upstream `high ≥ close`
invariant is violated, `H14 = L14 = 5` and `Close − L14 = 5 > 0`. -/
def badFlatSeries : List PriceBar :=
  (List.range 14).map fun d => ⟨d, 5, 5, 5, 10, 0⟩

/-- 14 bars with Low 0, High 1 and Close 10 (invariant violated):
`H14 = 1 ≠ 0 = L14` yet `%K = 1000`. -/
def badRangeSeries : List PriceBar :=
  (List.range 14).map fun d => ⟨d, 1, 1, 0, 10, 0⟩

/-- 17 well-formed bars: Low 10, High 20, Close `10 + j/2`. -/
def goodSeries : List PriceBar :=
  (List.range 17).map fun d => ⟨d, 12, 20, 10, 10 + d / 2, 0⟩

/-- 14 strictly increasing closes 0, 1, ..., 13. -/
def closesUp : List ℚ := (List.range 14).map fun i => (i : ℚ)

/-- 14 constant closes. -/
def closesFlat : List ℚ := List.replicate 14 5

/-- Three bars whose Opens are 0.004, 0.004, 0.01: rounding before
averaging changes the reported mean. -/
def roundSeries : List PriceBar :=
  [⟨0, 4 / 1000, 1, 0, 1, 0⟩, ⟨1, 4 / 1000, 1, 0, 1, 0⟩, ⟨2, 1 / 100, 1, 0, 1, 0⟩]

/-! ### Helper lemmas -/

lemma getD_range_map (g : Nat → α) (n i : Nat) (h : i < n) (d : α) :
    ((List.range n).map g).getD i d = g i := by
  have hlen : i < ((List.range n).map g).length := by simpa
  rw [List.getD_eq_getElem _ _ hlen]
  simp

lemma length_rollingMin (p : Nat) (xs : List ℚ) :
    (rollingMin p xs).length = xs.length := by
  simp [rollingMin]

lemma length_pctK (p : Nat) (fs : List PriceBar) :
    (pctK p fs).length = fs.length := by
  simp [pctK]

/-- Rows whose trailing window is short have no `L14`. -/
lemma colL14_getD_none (p : Nat) (fs : List PriceBar) (i : Nat)
    (hi : i < fs.length) (hp : i + 1 < p) :
    (colL14 p fs).getD i none = none := by
  unfold colL14 rollingMin
  rw [getD_range_map _ _ _ (by simpa using hi)]
  simp [hp]

lemma kElem_none (c : ℚ) (h : Option ℚ) : kElem c none h = FVal.nan := by
  cases h <;> rfl

/-- `%K` is NaN at every row whose trailing window is short. -/
lemma pctK_nan_of_short (p : Nat) (fs : List PriceBar) (i : Nat)
    (hi : i < fs.length) (hp : i + 1 < p) :
    (pctK p fs).getD i FVal.nan = FVal.nan := by
  unfold pctK
  rw [getD_range_map _ _ _ hi]
  rw [colL14_getD_none p fs i hi hp, kElem_none]

lemma foldl_min_le_init (xs : List ℚ) (x : ℚ) : xs.foldl min x ≤ x := by
  induction xs generalizing x with
  | nil => simp
  | cons a xs ih => exact le_trans (ih (min x a)) (min_le_left x a)

lemma foldl_min_le_mem (xs : List ℚ) (x y : ℚ) (hy : y ∈ xs) :
    xs.foldl min x ≤ y := by
  induction xs generalizing x with
  | nil => cases hy
  | cons a xs ih =>
    rcases List.mem_cons.1 hy with rfl | hy2
    · exact le_trans (foldl_min_le_init xs (min x y)) (min_le_right x y)
    · exact ih _ hy2

lemma listMin_le (xs : List ℚ) (m x : ℚ) (hm : listMin xs = some m)
    (hx : x ∈ xs) : m ≤ x := by
  cases xs with
  | nil => cases hx
  | cons a xs =>
    simp only [listMin, Option.some.injEq] at hm
    subst hm
    rcases List.mem_cons.1 hx with rfl | h2
    · exact foldl_min_le_init xs x
    · exact foldl_min_le_mem xs a x h2

lemma init_le_foldl_max (xs : List ℚ) (x : ℚ) : x ≤ xs.foldl max x := by
  induction xs generalizing x with
  | nil => simp
  | cons a xs ih => exact le_trans (le_max_left x a) (ih (max x a))

lemma mem_le_foldl_max (xs : List ℚ) (x y : ℚ) (hy : y ∈ xs) :
    y ≤ xs.foldl max x := by
  induction xs generalizing x with
  | nil => cases hy
  | cons a xs ih =>
    rcases List.mem_cons.1 hy with rfl | hy2
    · exact le_trans (le_max_right x y) (init_le_foldl_max xs (max x y))
    · exact ih _ hy2

lemma le_listMax (xs : List ℚ) (m x : ℚ) (hm : listMax xs = some m)
    (hx : x ∈ xs) : x ≤ m := by
  cases xs with
  | nil => cases hx
  | cons a xs =>
    simp only [listMax, Option.some.injEq] at hm
    subst hm
    rcases List.mem_cons.1 hx with rfl | h2
    · exact init_le_foldl_max xs x
    · exact mem_le_foldl_max xs a x h2

lemma getElem_mem_window (xs : List ℚ) (p i : Nat) (hp : 1 ≤ p)
    (hi : i < xs.length) : xs[i] ∈ window p i xs := by
  have hlen : (window p i xs).length = min (i + 1) xs.length - (i + 1 - p) := by
    simp [window]
  apply List.mem_iff_getElem.2
  refine ⟨i - (i + 1 - p), by omega, ?_⟩
  simp only [window, List.getElem_drop, List.getElem_take]
  congr 1
  omega

lemma window_map (f : α → β) (p i : Nat) (xs : List α) :
    window p i (xs.map f) = (window p i xs).map f := by
  simp [window, List.map_take, List.map_drop]

lemma getD_mapCol (f : PriceBar → ℚ) (fs : List PriceBar) (i : Nat)
    (hi : i < fs.length) (d : ℚ) : (fs.map f).getD i d = f fs[i] := by
  rw [List.getD_eq_getElem _ _ (by simpa using hi)]
  simp

lemma mem_of_mem_window (xs : List α) (p i : Nat) (y : α)
    (hy : y ∈ window p i xs) : y ∈ xs :=
  List.mem_of_mem_take (List.mem_of_mem_drop hy)

lemma colL14_le_Low (fs : List PriceBar) (i : Nat) (hi : i < fs.length)
    (l : ℚ) (hl : (colL14 14 fs).getD i none = some l) : l ≤ fs[i].Low := by
  unfold colL14 rollingMin at hl
  rw [getD_range_map _ _ _ (by simpa using hi)] at hl
  split at hl
  · exact absurd hl (by simp)
  · have hmem : fs[i].Low ∈ window 14 i (fs.map PriceBar.Low) := by
      have := getElem_mem_window (fs.map PriceBar.Low) 14 i (by omega)
        (by simpa using hi)
      simpa using this
    exact listMin_le _ _ _ hl hmem

lemma High_le_colH14 (fs : List PriceBar) (i : Nat) (hi : i < fs.length)
    (h : ℚ) (hh : (colH14 14 fs).getD i none = some h) : fs[i].High ≤ h := by
  unfold colH14 rollingMax at hh
  rw [getD_range_map _ _ _ (by simpa using hi)] at hh
  split at hh
  · exact absurd hh (by simp)
  · have hmem : fs[i].High ∈ window 14 i (fs.map PriceBar.High) := by
      have := getElem_mem_window (fs.map PriceBar.High) 14 i (by omega)
        (by simpa using hi)
      simpa using this
    exact le_listMax _ _ _ hh hmem

/-- `num q` with `q` in the indicator range `[0, 100]`. -/
def kInRange : FVal → Bool
  | FVal.num q => decide (0 ≤ q ∧ q ≤ 100)
  | _ => false

/-! ### Claims -/

/-- C1: every row of `filter(S, W)` falls on weekday `W`, and the
filtered series is a sublist of `S`; when `S` is ascending by date the
filtered series is too (order is preserved). -/
theorem claim1_filter_weekday_sublist (s : List PriceBar) (w : Nat)
    (hs : List.Pairwise (fun a b => a.date < b.date) s) :
    (filterDay s w).Sublist s ∧
    (∀ b ∈ filterDay s w, dayofweek b.date = w) ∧
    List.Pairwise (fun a b => a.date < b.date) (filterDay s w) := by
  refine ⟨List.filter_sublist s, ?_, hs.sublist (List.filter_sublist s)⟩
  intro b hb
  have := List.of_mem_filter hb
  simpa using this

/-- C1 witness: the filter on the concrete 20-day series. -/
theorem claim1_witness :
    (filterDay scenarioSeries 4).Sublist scenarioSeries ∧
    List.Pairwise (fun a b => a.date < b.date) (filterDay scenarioSeries 4) :=
  ⟨(claim1_filter_weekday_sublist scenarioSeries 4 (by decide)).1,
   (claim1_filter_weekday_sublist scenarioSeries 4 (by decide)).2.2⟩

/-- C2: the rolling window advances over the weekday-filtered rows: if
the filtered series has fewer than 14 rows, `%K` is NaN at every
filtered row, even though the original series has at least 14 rows. -/
theorem claim2_window_over_filtered_rows (s : List PriceBar) (w : Nat)
    (hcal : 14 ≤ s.length) (hlt : (filterDay s w).length < 14) :
    pctK 14 (filterDay s w) =
      List.replicate (filterDay s w).length FVal.nan := by
  rw [show (filterDay s w).length = (pctK 14 (filterDay s w)).length from
    (length_pctK 14 (filterDay s w)).symm]
  apply List.eq_replicate_of_mem
  intro x hx
  obtain ⟨i, hi, rfl⟩ := List.mem_iff_getElem.1 hx
  have hiLen : i < (filterDay s w).length := by
    simpa [length_pctK] using hi
  have hgd := pctK_nan_of_short 14 (filterDay s w) i hiLen
    (by omega)
  rwa [List.getD_eq_getElem _ _ hi] at hgd

/-- C2 witness: the spec's 20-day scenario has 3 Fridays, and `%K` is
NaN at each of them. -/
theorem claim2_witness :
    pctK 14 (filterDay scenarioSeries 4) =
      List.replicate (filterDay scenarioSeries 4).length FVal.nan :=
  claim2_window_over_filtered_rows scenarioSeries 4 (by decide) (by decide)

/-- C3, counterexample to the claim as stated: on a series violating the
`high ≥ close` bar invariant (which §3 says the core must tolerate),
`H14 ≠ L14` yet `%K = 1000 ∉ [0, 100]`. -/
theorem claim3_counterexample :
    (colL14 14 badRangeSeries).getD 13 none = some 0 ∧
    (colH14 14 badRangeSeries).getD 13 none = some 1 ∧
    (pctK 14 badRangeSeries).getD 13 FVal.nan = FVal.num 1000 ∧
    ¬ kInRange (FVal.num 1000) = true := by
  exact ⟨by decide, by decide, by decide, by decide⟩

/-- C3 (amended: for bars satisfying the PriceBar invariant
`low ≤ close ≤ high`): `%K` is NaN whenever the trailing window has
fewer than 14 rows, and `%K ∈ [0, 100]` whenever `H14 ≠ L14`. -/
theorem claim3_pctK_bounds (fs : List PriceBar)
    (hinv : ∀ b ∈ fs, b.Low ≤ b.Close ∧ b.Close ≤ b.High)
    (i : Nat) (hi : i < fs.length) :
    (i + 1 < 14 → (pctK 14 fs).getD i FVal.nan = FVal.nan) ∧
    (∀ l h, (colL14 14 fs).getD i none = some l →
      (colH14 14 fs).getD i none = some h → l ≠ h →
      kInRange ((pctK 14 fs).getD i FVal.nan) = true) := by
  constructor
  · intro hp
    exact pctK_nan_of_short 14 fs i hi hp
  · intro l h hl hh hlh
    have hlow : l ≤ fs[i].Low := colL14_le_Low fs i hi l hl
    have hhigh : fs[i].High ≤ h := High_le_colH14 fs i hi h hh
    have hbar := hinv fs[i] (List.getElem_mem hi)
    have hc1 : l ≤ fs[i].Close := le_trans hlow hbar.1
    have hc2 : fs[i].Close ≤ h := le_trans hbar.2 hhigh
    have hlth : l < h := lt_of_le_of_ne (le_trans hc1 hc2) hlh
    unfold pctK
    rw [getD_range_map _ _ _ hi, hl, hh]
    rw [getD_mapCol PriceBar.Close fs i hi 0]
    set c := fs[i].Close with hc
    have hden : h - l ≠ 0 := by
      intro h0
      exact absurd (by linarith : l = h) hlh
    simp only [kElem, FVal.divQ, if_pos hden, kInRange]
    apply decide_eq_true
    constructor
    · apply div_nonneg
      · linarith
      · linarith
    · rw [div_le_iff₀ (by linarith : (0:ℚ) < h - l)]
      linarith

/-- C3 witness: the amended claim at the well-formed 17-bar series,
row 13 (`L14 = 10`, `H14 = 20`). -/
theorem claim3_witness :
    kInRange ((pctK 14 goodSeries).getD 13 FVal.nan) = true :=
  (claim3_pctK_bounds goodSeries (by decide) 13 (by decide)).2 10 20
    (by decide) (by decide) (by decide)

lemma length_gainsCol (xs : List ℚ) : (gainsCol xs).length = xs.length := by
  simp [gainsCol, diffQ]

lemma length_lossesCol (xs : List ℚ) : (lossesCol xs).length = xs.length := by
  simp [lossesCol, diffQ]

lemma rsElem_none (x : Option ℚ) : rsElem none x = FVal.nan := by
  cases x <;> rfl

lemma rsiElem_nan : rsiElem FVal.nan = FVal.nan := rfl

/-- C4: where the rolling gain and loss are both defined, a zero loss
with a positive gain saturates RSI to exactly 100 (the float division
produces +inf and `100 - 100/(1+inf) = 100`), while gain = loss = 0
gives NaN (0/0). -/
theorem claim4_rsi_saturation (xs : List ℚ) (i : Nat) :
    (∀ g, (gainCol 14 xs).getD i none = some g →
      (lossCol 14 xs).getD i none = some 0 → 0 < g →
      (rsiCol 14 xs).getD i FVal.nan = FVal.num 100) ∧
    ((gainCol 14 xs).getD i none = some 0 →
      (lossCol 14 xs).getD i none = some 0 →
      (rsiCol 14 xs).getD i FVal.nan = FVal.nan) := by
  have hiLen : i < xs.length ∨ ¬ i < xs.length := em _
  constructor
  · intro g hg hl hpos
    rcases hiLen with hi | hi
    · unfold rsiCol
      rw [getD_range_map _ _ _ hi, hg, hl]
      simp only [rsElem, FVal.divQ]
      rw [if_neg (by simp), if_pos hpos]
      simp only [rsiElem, FVal.sub, FVal.add, FVal.div, FVal.neg]
      norm_num
    · exfalso
      have : (gainCol 14 xs).getD i none = none := by
        apply List.getD_eq_default
        simp only [gainCol, rollingMean, List.length_map, List.length_range,
          length_gainsCol]
        omega
      rw [hg] at this
      cases this
  · intro hg hl
    rcases hiLen with hi | hi
    · unfold rsiCol
      rw [getD_range_map _ _ _ hi, hg, hl]
      simp only [rsElem, FVal.divQ]
      rw [if_neg (by simp), if_neg (by norm_num), if_neg (by norm_num)]
      rfl
    · exfalso
      have : (gainCol 14 xs).getD i none = none := by
        apply List.getD_eq_default
        simp only [gainCol, rollingMean, List.length_map, List.length_range,
          length_gainsCol]
        omega
      rw [hg] at this
      cases this

/-- C4 witness: 14 strictly increasing closes give loss 0 and gain
13/14 at row 13, hence RSI exactly 100; 14 constant closes give 0/0,
hence NaN. -/
theorem claim4_witness :
    (rsiCol 14 closesUp).getD 13 FVal.nan = FVal.num 100 ∧
    (rsiCol 14 closesFlat).getD 13 FVal.nan = FVal.nan :=
  ⟨(claim4_rsi_saturation closesUp 13).1 (13 / 14) (by decide) (by decide)
      (by decide),
   (claim4_rsi_saturation closesFlat 13).2 (by decide) (by decide)⟩

/-- C5, counterexample to the claim as stated: with 14 strictly
increasing closes, RSI at row 13 — one of the first 14 rows — is the
defined value 100, not missing.  The script's `delta.where(delta > 0, 0)`
turns the undefined first delta into an ordinary 0 (`NaN > 0` is False),
so the rolling means are already defined at row 13. -/
theorem claim5_counterexample :
    13 < 14 ∧ (rsiCol 14 closesUp).getD 13 FVal.nan = FVal.num 100 := by
  exact ⟨by decide, by decide⟩

/-- C5 (amended): RSI is NaN for the first 13 (= P − 1) rows, because
the rolling-14 means of the zero-filled gains and losses need 14 rows;
it can already be defined at row index 13 (the P-th row). -/
theorem claim5_rsi_undefined_prefix (xs : List ℚ) (i : Nat)
    (hi : i < xs.length) (hp : i + 1 < 14) :
    (rsiCol 14 xs).getD i FVal.nan = FVal.nan := by
  unfold rsiCol
  rw [getD_range_map _ _ _ hi]
  have hg : (gainCol 14 xs).getD i none = none := by
    unfold gainCol rollingMean
    rw [getD_range_map _ _ _ (by simpa [length_gainsCol] using hi)]
    simp [hp]
  rw [hg, rsElem_none, rsiElem_nan]

/-- C5 witness: row 5 of the increasing-closes series. -/
theorem claim5_witness : (rsiCol 14 closesUp).getD 5 FVal.nan = FVal.nan :=
  claim5_rsi_undefined_prefix closesUp 5 (by decide) (by decide)

lemma window3_eq (xs : List FVal) (i : Nat) (h2 : 2 ≤ i) (hi : i < xs.length) :
    window 3 i xs =
      [xs.getD (i - 2) FVal.nan, xs.getD (i - 1) FVal.nan,
        xs.getD i FVal.nan] := by
  apply List.ext_getElem
  · simp only [window, List.length_drop, List.length_take]
    simp only [List.length_cons, List.length_nil]
    omega
  · intro j hj1 hj2
    simp only [window, List.getElem_drop, List.getElem_take]
    have hj3 : j < 3 := by simpa using hj2
    rcases j with _ | j
    · rw [List.getD_eq_getElem _ _ (by omega)]
      rfl
    rcases j with _ | j
    · rw [show [xs.getD (i - 2) FVal.nan, xs.getD (i - 1) FVal.nan,
          xs.getD i FVal.nan][1] = xs.getD (i - 1) FVal.nan from rfl]
      rw [List.getD_eq_getElem _ _ (by omega)]
      congr 1 <;> omega
    rcases j with _ | j
    · rw [show [xs.getD (i - 2) FVal.nan, xs.getD (i - 1) FVal.nan,
          xs.getD i FVal.nan][2] = xs.getD i FVal.nan from rfl]
      rw [List.getD_eq_getElem _ _ (by omega)]
      congr 1 <;> omega
    · omega

lemma add_numZero (x : FVal) : FVal.add (FVal.num 0) x = x := by
  cases x <;> simp [FVal.add]

/-- C6: `%D[i]` is the FVal arithmetic mean `(K[i-2] + K[i-1] + K[i]) / 3`
when the three `%K` values are defined, and NaN when any of them is NaN
or fewer than 3 rows precede row `i`. -/
theorem claim6_pctD_mean (fs : List PriceBar) (i : Nat) (hi : i < fs.length) :
    (i < 3 → (pctD 14 fs).getD i FVal.nan = FVal.nan) ∧
    (2 ≤ i →
      ((((pctK 14 fs).getD (i - 2) FVal.nan).isNan = true ∨
          ((pctK 14 fs).getD (i - 1) FVal.nan).isNan = true ∨
          ((pctK 14 fs).getD i FVal.nan).isNan = true →
        (pctD 14 fs).getD i FVal.nan = FVal.nan) ∧
       (((pctK 14 fs).getD (i - 2) FVal.nan).isNan = false →
        ((pctK 14 fs).getD (i - 1) FVal.nan).isNan = false →
        ((pctK 14 fs).getD i FVal.nan).isNan = false →
        (pctD 14 fs).getD i FVal.nan =
          FVal.div
            (FVal.add
              (FVal.add ((pctK 14 fs).getD (i - 2) FVal.nan)
                ((pctK 14 fs).getD (i - 1) FVal.nan))
              ((pctK 14 fs).getD i FVal.nan))
            (FVal.num 3)))) := by
  have hKlen : i < (pctK 14 fs).length := by simpa [length_pctK] using hi
  have hD : (pctD 14 fs).getD i FVal.nan =
      (if i + 1 < 3 ∨ (window 3 i (pctK 14 fs)).any FVal.isNan then FVal.nan
       else FVal.div (fsum (window 3 i (pctK 14 fs)))
        (FVal.num ((window 3 i (pctK 14 fs)).length : ℚ))) := by
    unfold pctD rollingMeanF
    rw [getD_range_map _ _ _ hKlen]
  constructor
  · intro h3
    rcases Nat.lt_or_ge i 2 with h2 | h2
    · rw [hD, if_pos (Or.inl (by omega))]
    · have hi2 : i = 2 := by omega
      subst hi2
      rw [hD, window3_eq (pctK 14 fs) 2 (by omega) hKlen]
      have hk0 : (pctK 14 fs).getD 0 FVal.nan = FVal.nan :=
        pctK_nan_of_short 14 fs 0 (by omega) (by omega)
      rw [if_pos]
      right
      simp only [List.any_cons, hk0]
      simp [FVal.isNan]
  · intro h2
    rw [hD, window3_eq (pctK 14 fs) i h2 hKlen]
    constructor
    · intro hnan
      rw [if_pos]
      right
      rcases hnan with h | h | h <;>
        · simp only [List.any_cons, List.any_nil, h]
          simp
    · intro ha hb hc
      rw [if_neg]
      · rw [show ([((pctK 14 fs).getD (i - 2) FVal.nan),
            ((pctK 14 fs).getD (i - 1) FVal.nan),
            ((pctK 14 fs).getD i FVal.nan)]).length = 3 from rfl]
        rw [show (fsum [((pctK 14 fs).getD (i - 2) FVal.nan),
            ((pctK 14 fs).getD (i - 1) FVal.nan),
            ((pctK 14 fs).getD i FVal.nan)]) =
          FVal.add (FVal.add (FVal.add (FVal.num 0)
              ((pctK 14 fs).getD (i - 2) FVal.nan))
              ((pctK 14 fs).getD (i - 1) FVal.nan))
              ((pctK 14 fs).getD i FVal.nan) from rfl]
        rw [add_numZero]
        norm_num
      · intro hcontra
        rcases hcontra with h3 | hany
        · omega
        · simp only [List.any_cons, List.any_nil, ha, hb, hc] at hany
          simp at hany

/-- C6 witness: row 15 of the well-formed 17-bar series, where
`%K[13..15]` are all defined. -/
theorem claim6_witness :
    (pctD 14 goodSeries).getD 15 FVal.nan =
      FVal.div
        (FVal.add
          (FVal.add ((pctK 14 goodSeries).getD 13 FVal.nan)
            ((pctK 14 goodSeries).getD 14 FVal.nan))
          ((pctK 14 goodSeries).getD 15 FVal.nan))
        (FVal.num 3) :=
  ((claim6_pctD_mean goodSeries 15 (by decide)).2 (by decide)).2
    (by decide) (by decide) (by decide)

/-- Not a silently-produced float error value (±inf). -/
def notErrVal : FVal → Bool
  | FVal.inf => false
  | FVal.ninf => false
  | _ => true

lemma pctK_entry_cases (fs : List PriceBar)
    (hinv : ∀ b ∈ fs, b.Low ≤ b.Close ∧ b.Close ≤ b.High)
    (i : Nat) (hi : i < fs.length) :
    (pctK 14 fs).getD i FVal.nan = FVal.nan ∨
      ∃ q, (pctK 14 fs).getD i FVal.nan = FVal.num q := by
  unfold pctK
  rw [getD_range_map _ _ _ hi]
  cases hL : (colL14 14 fs).getD i none with
  | none => left; rw [kElem_none]
  | some l =>
    cases hH : (colH14 14 fs).getD i none with
    | none => left; rfl
    | some h =>
      rw [getD_mapCol PriceBar.Close fs i hi 0]
      by_cases hd : h - l = 0
      · left
        have hbar := hinv fs[i] (List.getElem_mem hi)
        have h1 : l ≤ fs[i].Close :=
          le_trans (colL14_le_Low fs i hi l hL) hbar.1
        have h2 : fs[i].Close ≤ h :=
          le_trans hbar.2 (High_le_colH14 fs i hi h hH)
        have hcl : fs[i].Close = l := by linarith
        show FVal.divQ (100 * (fs[i].Close - l)) (h - l) = FVal.nan
        rw [hcl, hd, show (100 : ℚ) * (l - l) = 0 from by ring]
        decide
      · right
        refine ⟨100 * (fs[i].Close - l) / (h - l), ?_⟩
        show FVal.divQ (100 * (fs[i].Close - l)) (h - l) = _
        simp [FVal.divQ, hd]

lemma pctK_mem_cases (fs : List PriceBar)
    (hinv : ∀ b ∈ fs, b.Low ≤ b.Close ∧ b.Close ≤ b.High) :
    ∀ v ∈ pctK 14 fs, v = FVal.nan ∨ ∃ q, v = FVal.num q := by
  intro v hv
  obtain ⟨i, hilen, rfl⟩ := List.mem_iff_getElem.1 hv
  have hi : i < fs.length := by simpa [length_pctK] using hilen
  have hcase := pctK_entry_cases fs hinv i hi
  rwa [List.getD_eq_getElem _ _ hilen] at hcase

lemma foldl_add_num (xs : List FVal) :
    ∀ a : ℚ, (∀ v ∈ xs, ∃ q, v = FVal.num q) →
      ∃ s, xs.foldl FVal.add (FVal.num a) = FVal.num s := by
  induction xs with
  | nil => intro a _; exact ⟨a, rfl⟩
  | cons x xs ih =>
    intro a h
    obtain ⟨q, hxq⟩ := h x (List.mem_cons_self x xs)
    rw [List.foldl_cons, hxq]
    exact ih (a + q) (fun v hv => h v (List.mem_cons_of_mem x hv))

lemma gainsCol_nonneg (xs : List ℚ) : ∀ x ∈ gainsCol xs, 0 ≤ x := by
  intro x hx
  simp only [gainsCol, List.mem_map] at hx
  obtain ⟨d, _, rfl⟩ := hx
  cases d with
  | none => norm_num
  | some d =>
    dsimp only
    split
    · linarith
    · norm_num

lemma lossesCol_nonneg (xs : List ℚ) : ∀ x ∈ lossesCol xs, 0 ≤ x := by
  intro x hx
  simp only [lossesCol, List.mem_map] at hx
  obtain ⟨d, _, rfl⟩ := hx
  cases d with
  | none => norm_num
  | some d =>
    dsimp only
    split
    · linarith
    · norm_num

lemma qmean_window_nonneg (xs : List ℚ) (hx : ∀ x ∈ xs, 0 ≤ x)
    (p i : Nat) : 0 ≤ qmean (window p i xs) := by
  apply div_nonneg
  · apply List.sum_nonneg
    intro y hy
    exact hx y (mem_of_mem_window xs p i y hy)
  · exact_mod_cast Nat.zero_le _

lemma rsiElem_num (r : ℚ) (hr : 0 ≤ r) :
    ∃ q, rsiElem (FVal.num r) = FVal.num q := by
  refine ⟨100 + -(100 / (1 + r)), ?_⟩
  show FVal.sub (FVal.num 100)
    (FVal.div (FVal.num 100) (FVal.add (FVal.num 1) (FVal.num r))) = _
  have h1 : (1 : ℚ) + r ≠ 0 := by linarith
  show FVal.sub (FVal.num 100) (FVal.divQ 100 (1 + r)) = _
  rw [FVal.divQ, if_pos h1]
  rfl

/-- C7, counterexample to the claim as stated: on the invariant-violating
flat series (`high = low = 5`, `close = 10`), `%K` at row 13 is the float
value `+inf` — a silently-produced error value, not a missing marker. -/
theorem claim7_counterexample :
    (pctK 14 badFlatSeries).getD 13 FVal.nan = FVal.inf ∧
    notErrVal FVal.inf = false := by
  exact ⟨by decide, by decide⟩

/-- C7 (amended: for series satisfying the PriceBar invariant
`low ≤ close ≤ high`): the indicator engine is a total function and
every `%K`, `%D` and RSI value is either NaN — pandas' explicit missing
marker — or an ordinary number; no ±infinity is ever produced. -/
theorem claim7_no_error_values (fs : List PriceBar)
    (hinv : ∀ b ∈ fs, b.Low ≤ b.Close ∧ b.Close ≤ b.High) :
    (∀ v ∈ pctK 14 fs, notErrVal v = true) ∧
    (∀ v ∈ pctD 14 fs, notErrVal v = true) ∧
    (∀ v ∈ rsiCol 14 (fs.map PriceBar.Close), notErrVal v = true) := by
  have hKcases := pctK_mem_cases fs hinv
  refine ⟨?_, ?_, ?_⟩
  · intro v hv
    rcases hKcases v hv with rfl | ⟨q, rfl⟩ <;> rfl
  · intro v hv
    unfold pctD rollingMeanF at hv
    obtain ⟨i, hiK, rfl⟩ := List.mem_iff_getElem.1 hv
    have hi : i < (pctK 14 fs).length := by simpa using hiK
    rw [List.getElem_map, List.getElem_range]
    split
    · rfl
    · rename_i hcond
      push_neg at hcond
      have hnoNan : ∀ x ∈ window 3 i (pctK 14 fs), ∃ q, x = FVal.num q := by
        intro x hxw
        rcases hKcases x (mem_of_mem_window _ 3 i x hxw) with rfl | hq
        · exact absurd (List.any_eq_true.2 ⟨FVal.nan, hxw, rfl⟩) hcond.2
        · exact hq
      obtain ⟨sQ, hs⟩ := foldl_add_num _ 0 hnoNan
      rw [show fsum (window 3 i (pctK 14 fs)) =
        (window 3 i (pctK 14 fs)).foldl FVal.add (FVal.num 0) from rfl, hs]
      by_cases hlen : ((window 3 i (pctK 14 fs)).length : ℚ) = 0
      · show notErrVal (FVal.divQ sQ _) = true
        rw [hlen]
        have hwin0 : (window 3 i (pctK 14 fs)).length = 0 := by
          exact_mod_cast hlen
        have hnil := List.length_eq_zero.1 hwin0
        rw [hnil] at hs
        have hs0 : FVal.num sQ = FVal.num 0 := hs.symm
        rw [show sQ = 0 from by injection hs0]
        decide
      · show notErrVal (FVal.divQ sQ _) = true
        rw [FVal.divQ, if_pos hlen]
        rfl
  · intro v hv
    unfold rsiCol at hv
    obtain ⟨i, hiLen, rfl⟩ := List.mem_iff_getElem.1 hv
    have hi : i < (fs.map PriceBar.Close).length := by simpa using hiLen
    rw [List.getElem_map, List.getElem_range]
    by_cases hp : i + 1 < 14
    · have hg : (gainCol 14 (fs.map PriceBar.Close)).getD i none = none := by
        unfold gainCol rollingMean
        rw [getD_range_map _ _ _ (by simpa [length_gainsCol] using hi)]
        simp [hp]
      rw [hg, rsElem_none, rsiElem_nan]
      rfl
    · have hg : (gainCol 14 (fs.map PriceBar.Close)).getD i none =
          some (qmean (window 14 i (gainsCol (fs.map PriceBar.Close)))) := by
        unfold gainCol rollingMean
        rw [getD_range_map _ _ _ (by simpa [length_gainsCol] using hi)]
        simp [hp]
      have hl : (lossCol 14 (fs.map PriceBar.Close)).getD i none =
          some (qmean (window 14 i (lossesCol (fs.map PriceBar.Close)))) := by
        unfold lossCol rollingMean
        rw [getD_range_map _ _ _ (by simpa [length_lossesCol] using hi)]
        simp [hp]
      rw [hg, hl]
      set g := qmean (window 14 i (gainsCol (fs.map PriceBar.Close))) with hgdef
      set l := qmean (window 14 i (lossesCol (fs.map PriceBar.Close))) with hldef
      have hg0 : 0 ≤ g := qmean_window_nonneg _ (gainsCol_nonneg _) 14 i
      have hl0 : 0 ≤ l := qmean_window_nonneg _ (lossesCol_nonneg _) 14 i
      show notErrVal (rsiElem (FVal.divQ g l)) = true
      by_cases hlz : l = 0
      · rw [hlz]
        by_cases hgz : 0 < g
        · rw [show FVal.divQ g 0 = FVal.inf from by
            rw [FVal.divQ]
            rw [if_neg (by simp), if_pos hgz]]
          rfl
        · have hge : g = 0 := le_antisymm (not_lt.1 hgz) hg0
          rw [hge]
          decide
      · have hlpos : 0 < l := lt_of_le_of_ne hl0 (Ne.symm hlz)
        rw [show FVal.divQ g l = FVal.num (g / l) from by
          rw [FVal.divQ, if_pos hlz]]
        obtain ⟨q, hq⟩ := rsiElem_num (g / l) (div_nonneg hg0 hl0)
        rw [hq]
        rfl

/-- C7 witness: the amended claim applied at the well-formed series. -/
theorem claim7_witness :
    notErrVal ((pctK 14 goodSeries).getD 13 FVal.nan) = true :=
  (claim7_no_error_values goodSeries (by decide)).1
    ((pctK 14 goodSeries).getD 13 FVal.nan) (by decide)

lemma addF_comm (a b : FVal) : FVal.add a b = FVal.add b a := by
  cases a <;> cases b <;> simp [FVal.add] <;> ring

lemma addF_assoc (a b c : FVal) :
    FVal.add (FVal.add a b) c = FVal.add a (FVal.add b c) := by
  cases a <;> cases b <;> cases c <;> simp [FVal.add] <;> ring

lemma foldl_add_swap (xs : List FVal) (b x : FVal) :
    xs.foldl FVal.add (FVal.add b x) = FVal.add (xs.foldl FVal.add b) x := by
  induction xs generalizing b with
  | nil => rfl
  | cons a xs ih =>
    rw [List.foldl_cons, List.foldl_cons]
    rw [show FVal.add (FVal.add b x) a = FVal.add (FVal.add b a) x from by
      rw [addF_assoc, addF_assoc, addF_comm x a]]
    exact ih (FVal.add b a)

lemma fsum_reverse (xs : List FVal) : fsum xs.reverse = fsum xs := by
  induction xs with
  | nil => rfl
  | cons a xs ih =>
    rw [List.reverse_cons]
    unfold fsum
    rw [List.foldl_append, List.foldl_cons, List.foldl_nil, List.foldl_cons,
      foldl_add_swap]
    unfold fsum at ih
    rw [ih]

lemma fmean_reverse (xs : List FVal) : fmean xs.reverse = fmean xs := by
  simp only [fmean]
  rw [List.filter_reverse, fsum_reverse, List.length_reverse]

lemma qmean_reverse (xs : List ℚ) : qmean xs.reverse = qmean xs := by
  simp [qmean, List.sum_reverse]

lemma foldl_max_mem (xs : List ℚ) (x : ℚ) : xs.foldl max x ∈ x :: xs := by
  induction xs generalizing x with
  | nil => simp
  | cons a xs ih =>
    rw [List.foldl_cons]
    rcases List.mem_cons.1 (ih (max x a)) with h1 | h2
    · rw [h1]
      rcases max_choice x a with hx | ha
      · rw [hx]
        exact List.mem_cons_self x (a :: xs)
      · rw [ha]
        exact List.mem_cons_of_mem x (List.mem_cons_self a xs)
    · exact List.mem_cons_of_mem x (List.mem_cons_of_mem a h2)

lemma foldl_min_mem (xs : List ℚ) (x : ℚ) : xs.foldl min x ∈ x :: xs := by
  induction xs generalizing x with
  | nil => simp
  | cons a xs ih =>
    rw [List.foldl_cons]
    rcases List.mem_cons.1 (ih (min x a)) with h1 | h2
    · rw [h1]
      rcases min_choice x a with hx | ha
      · rw [hx]
        exact List.mem_cons_self x (a :: xs)
      · rw [ha]
        exact List.mem_cons_of_mem x (List.mem_cons_self a xs)
    · exact List.mem_cons_of_mem x (List.mem_cons_of_mem a h2)

lemma listMax_mem (xs : List ℚ) (m : ℚ) (hm : listMax xs = some m) :
    m ∈ xs := by
  cases xs with
  | nil => cases hm
  | cons a xs =>
    simp only [listMax, Option.some.injEq] at hm
    rw [← hm]
    exact foldl_max_mem xs a

lemma listMin_mem (xs : List ℚ) (m : ℚ) (hm : listMin xs = some m) :
    m ∈ xs := by
  cases xs with
  | nil => cases hm
  | cons a xs =>
    simp only [listMin, Option.some.injEq] at hm
    rw [← hm]
    exact foldl_min_mem xs a

lemma listMax_eq_none (xs : List ℚ) : listMax xs = none ↔ xs = [] := by
  cases xs <;> simp [listMax]

lemma listMin_eq_none (xs : List ℚ) : listMin xs = none ↔ xs = [] := by
  cases xs <;> simp [listMin]

lemma listMax_reverse (xs : List ℚ) : listMax xs.reverse = listMax xs := by
  cases hx : listMax xs with
  | none =>
    rw [listMax_eq_none] at hx
    rw [hx]
    rfl
  | some m =>
    cases hr : listMax xs.reverse with
    | none =>
      rw [listMax_eq_none, List.reverse_eq_nil_iff] at hr
      rw [hr] at hx
      cases hx
    | some mr =>
      have h1 : mr ≤ m :=
        le_listMax xs m mr hx (List.mem_reverse.1 (listMax_mem _ _ hr))
      have h2 : m ≤ mr :=
        le_listMax xs.reverse mr m hr (List.mem_reverse.2 (listMax_mem _ _ hx))
      rw [le_antisymm h1 h2]

lemma listMin_reverse (xs : List ℚ) : listMin xs.reverse = listMin xs := by
  cases hx : listMin xs with
  | none =>
    rw [listMin_eq_none] at hx
    rw [hx]
    rfl
  | some m =>
    cases hr : listMin xs.reverse with
    | none =>
      rw [listMin_eq_none, List.reverse_eq_nil_iff] at hr
      rw [hr] at hx
      cases hx
    | some mr =>
      have h1 : m ≤ mr :=
        listMin_le xs m mr hx (List.mem_reverse.1 (listMin_mem _ _ hr))
      have h2 : mr ≤ m :=
        listMin_le xs.reverse mr m hr (List.mem_reverse.2 (listMin_mem _ _ hx))
      rw [le_antisymm h2 h1]

/-- C8, counterexample to the claim as stated: with raw Opens
0.004, 0.004, 0.01 the script reports Average Open 0.0 (it averages the
already-rounded display values), while the 2-decimal rounding of the raw
mean is 0.01. -/
theorem claim8_counterexample :
    (summaryOf roundSeries).avgOpen = 0 ∧
    round2 (qmean (roundSeries.map PriceBar.Open)) = 1 / 100 ∧
    (summaryOf roundSeries).avgOpen ≠
      round2 (qmean (roundSeries.map PriceBar.Open)) := by
  exact ⟨by decide, by decide, by decide⟩

/-- C8 (amended): each reported summary statistic is the aggregate of
the DISPLAY values — the column values rounded to 2 decimals — rounded
again to 2 decimals; the display sort order does not affect them.
Rounding is applied before aggregation, not after only. -/
theorem claim8_summary_rounded_aggregates (fs : List PriceBar)
    (hne : fs ≠ []) :
    (summaryOf fs).avgOpen =
      round2 (qmean ((fs.map PriceBar.Open).map round2)) ∧
    (summaryOf fs).avgClose =
      round2 (qmean ((fs.map PriceBar.Close).map round2)) ∧
    (summaryOf fs).avgVariance =
      round2 (qmean ((colVariance fs).map round2)) ∧
    (summaryOf fs).maxHigh =
      round2 ((listMax ((fs.map PriceBar.High).map round2)).getD 0) ∧
    (summaryOf fs).minLow =
      round2 ((listMin ((fs.map PriceBar.Low).map round2)).getD 0) ∧
    (summaryOf fs).avgK =
      (if ((pctK 14 fs).map roundF).all FVal.isNan then none
       else some (roundF (fmean ((pctK 14 fs).map roundF)))) ∧
    (summaryOf fs).avgD =
      (if ((pctD 14 fs).map roundF).all FVal.isNan then none
       else some (roundF (fmean ((pctD 14 fs).map roundF)))) ∧
    (summaryOf fs).avgRSI =
      (if ((rsiCol 14 (fs.map PriceBar.Close)).map roundF).all FVal.isNan
        then none
       else some (roundF (fmean
        ((rsiCol 14 (fs.map PriceBar.Close)).map roundF)))) := by
  simp only [summaryOf, mkSummary, mkDisplay, displayCol, displayColF]
  refine ⟨?_, ?_, ?_, ?_, ?_, ?_, ?_, ?_⟩
  · rw [qmean_reverse]
  · rw [qmean_reverse]
  · rw [qmean_reverse]
  · rw [listMax_reverse]
  · rw [listMin_reverse]
  · rw [List.all_reverse, fmean_reverse]
  · rw [List.all_reverse, fmean_reverse]
  · rw [List.all_reverse, fmean_reverse]

/-- C8 witness: the amended Average Open equation at the concrete
3-bar series. -/
theorem claim8_witness :
    (summaryOf roundSeries).avgOpen =
      round2 (qmean ((roundSeries.map PriceBar.Open).map round2)) :=
  (claim8_summary_rounded_aggregates roundSeries (by decide)).1

/-- C9: when an indicator column is NaN in every row, its reported mean
is the explicit "N/A" marker (`none`), not a computed number; the
summary is a total function, so no error is raised. -/
theorem claim9_all_missing_unavailable (fs : List PriceBar)
    (hne : fs ≠ []) :
    ((∀ v ∈ pctK 14 fs, v = FVal.nan) → (summaryOf fs).avgK = none) ∧
    ((∀ v ∈ pctD 14 fs, v = FVal.nan) → (summaryOf fs).avgD = none) ∧
    ((∀ v ∈ rsiCol 14 (fs.map PriceBar.Close), v = FVal.nan) →
      (summaryOf fs).avgRSI = none) := by
  simp only [summaryOf, mkSummary, mkDisplay, displayColF]
  refine ⟨?_, ?_, ?_⟩ <;>
    · intro hall
      rw [if_pos]
      rw [List.all_eq_true]
      intro x hx
      rw [List.mem_reverse] at hx
      obtain ⟨v, hv, rfl⟩ := List.mem_map.1 hx
      rw [hall v hv]
      rfl

/-- C9 witness: a 3-row filtered series (shorter than every indicator
period) has all-NaN `%K`, `%D` and RSI, and all three means report
"N/A". -/
theorem claim9_witness :
    (summaryOf roundSeries).avgK = none ∧
    (summaryOf roundSeries).avgD = none ∧
    (summaryOf roundSeries).avgRSI = none :=
  ⟨(claim9_all_missing_unavailable roundSeries (by decide)).1 (by decide),
   (claim9_all_missing_unavailable roundSeries (by decide)).2.1 (by decide),
   (claim9_all_missing_unavailable roundSeries (by decide)).2.2 (by decide)⟩

/-- C10, counterexample to the claim as stated: line 76 of the script
(`df['DayOfWeek'] = df.index.dayofweek`) adds a column to the source
frame, so the source is not left unchanged. -/
theorem claim10_counterexample :
    (filterStage ⟨scenarioSeries, none⟩ 4).1 ≠
      (⟨scenarioSeries, none⟩ : StockFrame) := by
  intro h
  have hcol := congrArg StockFrame.dayOfWeekCol h
  simp [filterStage, addDayOfWeekCol] at hcol

/-- C10 (amended): the filter stage never touches the source frame's
rows — no price row, date or value is added, removed or modified; the
only mutation is the derived `DayOfWeek` helper column, and the filtered
output is an independent copy computed from those unchanged rows. -/
theorem claim10_rows_preserved (df : StockFrame) (w : Nat) :
    (filterStage df w).1.rows = df.rows ∧
    (filterStage df w).2 = filterDay df.rows w :=
  ⟨rfl, rfl⟩

end StockTracer
